import Mathlib

/-!
Verification of the grouping / metadata / report pipeline of `batchmail.py`.

The Python source is shallowly embedded: each relevant Python function is
translated into an executable Lean definition operating on explicit data
types, and the specification claims are settled as theorems about those
definitions.
-/

set_option autoImplicit false
set_option exponentiation.threshold 1200

namespace Batchmail

/-!
## Records as seen by the grouper and the subject formatter

`meta_data2groups` and `groups2subjects` read exactly two fields of each
metadata record: the file name (only for the error message) and the byte
size, i.e. the Python expressions `x['file']['name']` and
`x['file']['size']`.  A record is therefore embedded, for those functions,
as a structure carrying those two fields.  File sizes come from
`os.path.getsize` and are nonnegative integers, hence `Nat`.
-/

structure FileMeta where
  name : String
  size : Nat
  deriving DecidableEq, Repr

/-- Sum of the member sizes of a group, the Python expression
`sum(x['file']['size'] for x in grp)`. -/
def sizeSum (grp : List FileMeta) : Nat :=
  (grp.map FileMeta.size).sum

/-- The message of the exception raised by `meta_data2groups`:
`'file "%s", size %d, exceed max_size %d\n' % (name, size, max_size)`. -/
def metaErrMsg (x : FileMeta) (max_size : Nat) : String :=
  "file \"" ++ x.name ++ "\", size " ++ toString x.size ++
    ", exceed max_size " ++ toString max_size ++ "\n"

/-- The Python statement `groups[-1].append(x)`: append `x` to the last
group of a nonempty list of groups.  (The `[]` case is unreachable from
`meta_data2groups`, whose group list starts as `[[]]` and never shrinks.) -/
def appendLast : List (List FileMeta) → FileMeta → List (List FileMeta)
  | [], x => [[x]]
  | [g], x => [g ++ [x]]
  | g :: rest, x => g :: appendLast rest x

/-- The `for x in meta_data` loop body of `meta_data2groups`, with the two
mutable variables `groups` and `total_size` passed as explicit state.
Raising the oversize exception is modeled as `Except.error` with the
exception's message. -/
def meta_data2groups_loop (max_size : Nat) :
    List FileMeta → List (List FileMeta) → Nat → Except String (List (List FileMeta))
  | [], groups, _ => Except.ok groups
  | x :: rest, groups, total_size =>
    if x.size > max_size then
      Except.error (metaErrMsg x max_size)
    else
      if x.size + total_size < max_size then
        meta_data2groups_loop max_size rest (appendLast groups x) (total_size + x.size)
      else
        meta_data2groups_loop max_size rest (groups ++ [[x]]) x.size

/-- `meta_data2groups(meta_data, max_size)` from `batchmail.py`:
`groups = [[]]; total_size = 0;` then the loop above; returns `groups`. -/
def meta_data2groups (meta_data : List FileMeta) (max_size : Nat) :
    Except String (List (List FileMeta)) :=
  meta_data2groups_loop max_size meta_data [[]] 0

/-! ### Helper lemmas about the grouping loop -/

theorem appendLast_append (front : List (List FileMeta)) (cur : List FileMeta)
    (x : FileMeta) : appendLast (front ++ [cur]) x = front ++ [cur ++ [x]] := by
  induction front with
  | nil => rfl
  | cons f fs ih =>
    cases hfs : fs ++ [cur] with
    | nil => simp at hfs
    | cons a t =>
      show appendLast (f :: (fs ++ [cur])) x = f :: (fs ++ [cur ++ [x]])
      rw [hfs]
      show f :: appendLast (a :: t) x = f :: (fs ++ [cur ++ [x]])
      rw [← hfs, ih]

theorem join_appendLast (gs : List (List FileMeta)) (x : FileMeta) :
    (appendLast gs x).flatten = gs.flatten ++ [x] := by
  induction gs with
  | nil => rfl
  | cons g rest ih =>
    cases rest with
    | nil => simp [appendLast]
    | cons a t =>
      show (g :: appendLast (a :: t) x).flatten = (g :: a :: t).flatten ++ [x]
      simp only [List.flatten_cons]
      rw [ih]
      simp

/-- If every remaining record fits under the bound, the loop succeeds. -/
theorem loop_ok_of_le (max_size : Nat) :
    ∀ (l : List FileMeta) (gs : List (List FileMeta)) (total : Nat),
      (∀ r ∈ l, r.size ≤ max_size) →
      ∃ out, meta_data2groups_loop max_size l gs total = Except.ok out := by
  intro l
  induction l with
  | nil => exact fun gs total _ => ⟨gs, rfl⟩
  | cons x rest ih =>
    intro gs total h
    have hx : ¬ x.size > max_size := Nat.not_lt.2 (h x (List.mem_cons_self x rest))
    have hrest : ∀ r ∈ rest, r.size ≤ max_size :=
      fun r hr => h r (List.mem_cons_of_mem x hr)
    simp only [meta_data2groups_loop, if_neg hx]
    by_cases hfit : x.size + total < max_size
    · rw [if_pos hfit]; exact ih _ _ hrest
    · rw [if_neg hfit]; exact ih _ _ hrest

/-- If the loop succeeds, every remaining record fit under the bound. -/
theorem le_of_loop_ok (max_size : Nat) :
    ∀ (l : List FileMeta) (gs : List (List FileMeta)) (total : Nat)
      (out : List (List FileMeta)),
      meta_data2groups_loop max_size l gs total = Except.ok out →
      ∀ r ∈ l, r.size ≤ max_size := by
  intro l
  induction l with
  | nil => intro gs total out _ r hr; exact absurd hr (List.not_mem_nil r)
  | cons x rest ih =>
    intro gs total out h r hr
    by_cases hx : x.size > max_size
    · simp only [meta_data2groups_loop, if_pos hx] at h
      exact Except.noConfusion h
    · simp only [meta_data2groups_loop, if_neg hx] at h
      rcases List.mem_cons.1 hr with hxr | hrr
      · exact hxr ▸ Nat.not_lt.1 hx
      · by_cases hfit : x.size + total < max_size
        · rw [if_pos hfit] at h; exact ih _ _ _ h r hrr
        · rw [if_neg hfit] at h; exact ih _ _ _ h r hrr

/-- The first record over the bound aborts the loop with its message. -/
theorem loop_error_first (max_size : Nat) (r : FileMeta)
    (hr : max_size < r.size) :
    ∀ (pre suf : List FileMeta) (gs : List (List FileMeta)) (total : Nat),
      (∀ q ∈ pre, q.size ≤ max_size) →
      meta_data2groups_loop max_size (pre ++ r :: suf) gs total =
        Except.error (metaErrMsg r max_size) := by
  intro pre
  induction pre with
  | nil =>
    intro suf gs total _
    simp only [List.nil_append, meta_data2groups_loop, if_pos hr]
  | cons q pre' ih =>
    intro suf gs total h
    have hq : ¬ q.size > max_size := Nat.not_lt.2 (h q (List.mem_cons_self q pre'))
    have hpre : ∀ p ∈ pre', p.size ≤ max_size :=
      fun p hp => h p (List.mem_cons_of_mem q hp)
    simp only [List.cons_append, meta_data2groups_loop, if_neg hq]
    by_cases hfit : q.size + total < max_size
    · rw [if_pos hfit]; exact ih suf _ _ hpre
    · rw [if_neg hfit]; exact ih suf _ _ hpre

/-- The loop only ever appends records to the group list, in input order:
on success the concatenation of the output groups extends the
concatenation of the incoming groups by the remaining records. -/
theorem loop_join (max_size : Nat) :
    ∀ (l : List FileMeta) (gs : List (List FileMeta)) (total : Nat)
      (out : List (List FileMeta)),
      meta_data2groups_loop max_size l gs total = Except.ok out →
      out.flatten = gs.flatten ++ l := by
  intro l
  induction l with
  | nil =>
    intro gs total out h
    simp only [meta_data2groups_loop] at h
    cases h
    simp
  | cons x rest ih =>
    intro gs total out h
    by_cases hx : x.size > max_size
    · simp only [meta_data2groups_loop, if_pos hx] at h
      exact Except.noConfusion h
    · simp only [meta_data2groups_loop, if_neg hx] at h
      by_cases hfit : x.size + total < max_size
      · rw [if_pos hfit] at h
        have := ih _ _ _ h
        rw [this, join_appendLast]
        simp
      · rw [if_neg hfit] at h
        have := ih _ _ _ h
        rw [this]
        simp

/-- A property of a group list: any group containing a record whose size is
exactly the bound consists of that record only. -/
def singletonMaxProp (max_size : Nat) (gs : List (List FileMeta)) : Prop :=
  ∀ g ∈ gs, ∀ r ∈ g, r.size = max_size → g = [r]

/-- Loop invariant: provided the running total equals the size of the
current (last) group, a record of size exactly `max_size` can only ever sit
alone in its group.  The group list is written `front ++ [cur]` so that the
`groups[-1].append(x)` step is visible. -/
theorem loop_singleton_max (max_size : Nat) :
    ∀ (l : List FileMeta) (front : List (List FileMeta)) (cur : List FileMeta)
      (total : Nat) (out : List (List FileMeta)),
      total = sizeSum cur →
      singletonMaxProp max_size (front ++ [cur]) →
      meta_data2groups_loop max_size l (front ++ [cur]) total = Except.ok out →
      singletonMaxProp max_size out := by
  intro l
  induction l with
  | nil =>
    intro front cur total out _ hprop h
    simp only [meta_data2groups_loop] at h
    cases h
    exact hprop
  | cons x rest ih =>
    intro front cur total out htot hprop h
    by_cases hx : x.size > max_size
    · simp only [meta_data2groups_loop, if_pos hx] at h
      exact Except.noConfusion h
    · simp only [meta_data2groups_loop, if_neg hx] at h
      by_cases hfit : x.size + total < max_size
      · rw [if_pos hfit, appendLast_append] at h
        refine ih front (cur ++ [x]) (total + x.size) out ?_ ?_ h
        · simp [sizeSum, htot]
        · intro g hg r hrg hrsize
          rcases List.mem_append.1 hg with hgf | hgc
          · exact hprop g (List.mem_append_left [cur] hgf) r hrg hrsize
          · have hgcur : g = cur ++ [x] := List.mem_singleton.1 hgc
            subst hgcur
            rcases List.mem_append.1 hrg with hrc | hrx
            · -- `r` was already in the current group, so that group is `[r]`
              -- and the running total is already `max_size`: nothing fits.
              have hcur : cur = [r] :=
                hprop cur (List.mem_append_right front (List.mem_singleton.2 rfl))
                  r hrc hrsize
              exfalso
              rw [htot, hcur] at hfit
              simp only [sizeSum, List.map_cons, List.map_nil, List.sum_cons,
                List.sum_nil, Nat.add_zero] at hfit
              omega
            · -- `r = x` would need `max_size + total < max_size`.
              have hrx' : r = x := List.mem_singleton.1 hrx
              exfalso
              rw [hrx'] at hrsize
              rw [hrsize] at hfit
              omega
      · rw [if_neg hfit, List.append_assoc] at h
        refine ih (front ++ [cur]) [x] x.size out ?_ ?_ ?_
        · simp [sizeSum]
        · intro g hg r hrg hrsize
          rcases List.mem_append.1 hg with hgold | hgnew
          · exact hprop g hgold r hrg hrsize
          · have hgx : g = [x] := List.mem_singleton.1 hgnew
            subst hgx
            have hrx : r = x := List.mem_singleton.1 hrg
            rw [hrx]
          -- done: `[x] = [r]` after substitution
        · rw [← List.append_assoc] at h
          exact h

/-! ### Claim theorems about the grouper -/

/-- Claim C1 (code_bug evidence): the strict grouping bound is violated by
the code at an exact-fit record.  With one record of size 1 and
`max_size = 1`, `meta_data2groups` succeeds and produces a group whose
member sizes sum to 1, which is not strictly less than `max_size` — even
though the function's own docstring promises each group is smaller than
`max_size`. -/
theorem meta_data2groups_bound_violation :
    meta_data2groups [FileMeta.mk "a" 1] 1 =
      Except.ok [[], [FileMeta.mk "a" 1]] ∧
    ¬ sizeSum [FileMeta.mk "a" 1] < 1 :=
  ⟨rfl, by decide⟩

/-- Claim C2: a record whose size strictly exceeds `max_size` makes
`meta_data2groups` raise an exception naming the file, its size and the
limit (so the call returns no groups at all); and if no record exceeds
`max_size`, the call never raises. -/
theorem meta_data2groups_oversize :
    (∀ (max_size : Nat) (pre suf : List FileMeta) (r : FileMeta),
      (∀ q ∈ pre, q.size ≤ max_size) → max_size < r.size →
      meta_data2groups (pre ++ r :: suf) max_size =
        Except.error (metaErrMsg r max_size)) ∧
    (∀ (max_size : Nat) (metas : List FileMeta),
      (∀ q ∈ metas, q.size ≤ max_size) →
      ∃ gs, meta_data2groups metas max_size = Except.ok gs) := by
  constructor
  · intro max_size pre suf r hpre hr
    exact loop_error_first max_size r hr pre suf [[]] 0 hpre
  · intro max_size metas h
    exact loop_ok_of_le max_size metas [[]] 0 h

theorem meta_data2groups_oversize_witness :
    meta_data2groups [FileMeta.mk "big" 7] 3 =
      Except.error (metaErrMsg (FileMeta.mk "big" 7) 3) ∧
    ∃ gs, meta_data2groups [FileMeta.mk "ok" 2] 3 = Except.ok gs :=
  ⟨meta_data2groups_oversize.1 3 [] [] (FileMeta.mk "big" 7)
      (by intro q hq; exact absurd hq (List.not_mem_nil q)) (by decide),
    meta_data2groups_oversize.2 3 [FileMeta.mk "ok" 2] (by decide)⟩

/-- Claim C3: on success, the concatenation of the returned groups, in
group order and within-group order, is exactly the input list. -/
theorem meta_data2groups_coverage (metas : List FileMeta) (max_size : Nat)
    (gs : List (List FileMeta))
    (h : meta_data2groups metas max_size = Except.ok gs) :
    gs.flatten = metas := by
  have := loop_join max_size metas [[]] 0 gs h
  simpa using this

theorem meta_data2groups_coverage_witness :
    ([[FileMeta.mk "a" 3, FileMeta.mk "b" 4]] : List (List FileMeta)).flatten =
      [FileMeta.mk "a" 3, FileMeta.mk "b" 4] :=
  meta_data2groups_coverage [FileMeta.mk "a" 3, FileMeta.mk "b" 4] 10
    [[FileMeta.mk "a" 3, FileMeta.mk "b" 4]] rfl

/-- Claim C4: on the empty input list, for every `max_size`, the result is
exactly one group, and that group is empty. -/
theorem meta_data2groups_empty (max_size : Nat) :
    meta_data2groups [] max_size = Except.ok [[]] :=
  rfl

/-- Claim C9: a record whose size is exactly `max_size` is accepted (the
call succeeds whenever every record's size is at most `max_size`), and any
group containing such a record is that record alone, its group total being
exactly `max_size`. -/
theorem meta_data2groups_exact_fit (metas : List FileMeta) (max_size : Nat)
    (hall : ∀ r ∈ metas, r.size ≤ max_size) :
    ∃ gs, meta_data2groups metas max_size = Except.ok gs ∧
      ∀ g ∈ gs, ∀ r ∈ g, r.size = max_size →
        g = [r] ∧ sizeSum g = max_size := by
  obtain ⟨gs, hgs⟩ := loop_ok_of_le max_size metas [[]] 0 hall
  refine ⟨gs, hgs, ?_⟩
  have hsing : singletonMaxProp max_size gs := by
    refine loop_singleton_max max_size metas [] [] 0 gs (by simp [sizeSum]) ?_ hgs
    intro g hg r hrg _
    have : g = [] := by simpa using hg
    subst this
    exact absurd hrg (List.not_mem_nil r)
  intro g hg r hrg hrsize
  have hgr := hsing g hg r hrg hrsize
  refine ⟨hgr, ?_⟩
  rw [hgr]
  simp [sizeSum, hrsize]

theorem meta_data2groups_exact_fit_witness :
    ∃ gs, meta_data2groups [FileMeta.mk "a" 5] 5 = Except.ok gs ∧
      ∀ g ∈ gs, ∀ r ∈ g, r.size = 5 → g = [r] ∧ sizeSum g = 5 :=
  meta_data2groups_exact_fit [FileMeta.mk "a" 5] 5 (by decide)

/-!
## `sizeof_fmt`

The Python loop works on a `float`.  The very first `abs(num) < 1024.0`
test still sees the integer argument (CPython compares an int with a
float exactly); the first `num /= 1024.0` then converts the int to a
64-bit binary float, rounding it to 53 significant bits, to nearest,
ties to even (`floatOfInt` below).  Every later division by `1024.0`
merely decrements the float's exponent, exactly, so the running value
after `k ≥ 1` divisions is exactly the rational `floatOfInt n / 1024 ^ k`
— and the embedding carries its integer numerator together with `k`
instead of a float.  (`float(n)` raises OverflowError beyond `2 ^ 1024`;
the fallback clause of the theorem below stays under that.)
-/

/-- Nearest integer to `num / den` (`den > 0`), ties to the even integer:
the rounding IEEE-754 applies both when printf renders a float and when
an int is converted to a float. -/
def round_half_to_even (num den : Int) : Int :=
  let q := num.ediv den
  let r := num.emod den
  if 2 * r < den then q
  else if den < 2 * r then q + 1
  else if q.emod 2 = 0 then q else q + 1

/-- Number of low bits a 64-bit float drops from the magnitude `n`: the
least `e` with `n / 2 ^ e < 2 ^ 53` (so `0` for `n < 2 ^ 53`),
accumulated by binary search over descending shifts.  A shift `s` is
taken exactly when even after it at least 53 bits remain, i.e. when
`2 ^ (52 + s) ≤ n`.  The shift list covers `e ≤ 1023`, i.e. every
magnitude below `2 ^ 1076` — beyond the whole float range, inside which
every claim below stays. -/
def floatExpGo : List Nat → Nat → Nat
  | [], _ => 0
  | s :: rest, n =>
    if 2 ^ (52 + s) ≤ n then s + floatExpGo rest (n / 2 ^ s)
    else floatExpGo rest n

def floatExp (n : Nat) : Nat :=
  floatExpGo [512, 256, 128, 64, 32, 16, 8, 4, 2, 1] n

/-- CPython's int-to-float conversion (`num / 1024.0` converts `num`
first): round to nearest at 53 significant bits, ties to even.  The
identity for `|n| < 2 ^ 53`. -/
def floatOfInt (n : Int) : Int :=
  let e := floatExp n.natAbs
  round_half_to_even n ((2 : Int) ^ e) * 2 ^ e

/-- The printf rendering `"%3.1f"` of the float whose exact value is
`m / 1024 ^ k` (`m` the float's integer numerator, `floatOfInt` of the
original argument).  The minimum-width-3 padding never fires where
`sizeof_fmt` uses this: the magnitude is at least 1, so the output is at
least `d.d`. -/
def fmt31 (m : Int) (k : Nat) : String :=
  let t := round_half_to_even (10 * m) ((1024 : Int) ^ k)
  let sign := if t < 0 then "-" else ""
  sign ++ toString (t.natAbs / 10) ++ "." ++ toString (t.natAbs % 10)

/-- The unit list `['','Ki','Mi','Gi','Ti','Pi','Ei','Zi']`. -/
def fmtUnits : List String := ["", "Ki", "Mi", "Gi", "Ti", "Pi", "Ei", "Zi"]

/-- The `for unit in [...]` loop of `sizeof_fmt` from its second
iteration on (`sizeof_fmt` below handles the first, which still sees the
int): `m` is the integer numerator of the running float, `k` counts the
divisions by `1024.0` performed so far, so the running float is exactly
`m / 1024 ^ k` and `abs(num) < 1024.0` reads `|m| < 1024 ^ (k + 1)`;
after the loop the fallback unit is `'Yi'` (rendered by `"%.1f"`, which
agrees with `"%3.1f"` on every value of magnitude ≥ 1). -/
def sizeof_fmt_loop (m : Int) : List String → Nat → String
  | [], k => fmt31 m k ++ "Yi" ++ "B"
  | unit :: rest, k =>
    if m.natAbs < 1024 ^ (k + 1) then fmt31 m k ++ unit ++ "B"
    else sizeof_fmt_loop m rest (k + 1)

/-- `sizeof_fmt(num, suffix='B')` from `batchmail.py`, for integer input.
The first loop iteration (unit `''`) tests and renders (`"%d%s%s"`) the
int itself; `num /= 1024.0` then rounds it to `floatOfInt n`, and the
remaining iterations run `sizeof_fmt_loop` over the prefixed units. -/
def sizeof_fmt (n : Int) : String :=
  if n.natAbs < 1024 then toString n ++ "" ++ "B"
  else sizeof_fmt_loop (floatOfInt n) ["Ki", "Mi", "Gi", "Ti", "Pi", "Ei", "Zi"] 1

/-- A magnitude below `2 ^ 53` takes no shift: every threshold
`2 ^ (52 + s)` with `1 ≤ s` is at least `2 ^ 53`. -/
theorem floatExpGo_small (l : List Nat) (n : Nat) (h : n < 2 ^ 53)
    (hl : ∀ s ∈ l, 1 ≤ s) : floatExpGo l n = 0 := by
  induction l with
  | nil => rfl
  | cons s rest ih =>
    have hs1 : 1 ≤ s := hl s (List.mem_cons_self s rest)
    have hth : ¬ 2 ^ (52 + s) ≤ n := by
      have hmono : (2 : Nat) ^ 53 ≤ 2 ^ (52 + s) :=
        Nat.pow_le_pow_right (by norm_num) (by omega)
      omega
    simp only [floatExpGo, if_neg hth]
    exact ih (fun t ht => hl t (List.mem_cons_of_mem s ht))

/-- Below `2 ^ 53` the float conversion is the identity. -/
theorem floatOfInt_small (n : Int) (h : n.natAbs < 2 ^ 53) :
    floatOfInt n = n := by
  have he : floatExp n.natAbs = 0 :=
    floatExpGo_small [512, 256, 128, 64, 32, 16, 8, 4, 2, 1] n.natAbs h
      (by decide)
  have hd : n.ediv 1 = n := Int.ediv_one n
  have hm : n.emod 1 = 0 := Int.emod_one n
  simp only [floatOfInt, he, round_half_to_even, pow_zero, mul_one, hd, hm]
  norm_num

set_option maxHeartbeats 2000000 in
/-- Claim C7: `sizeof_fmt` on the three round examples, and in general:
below 1024 it renders the integer byte count; otherwise it stops at the
first unit index `k ≤ 7` at which the running float — exactly
`floatOfInt n / 1024 ^ k` — has magnitude below 1024, rendering one
decimal place with the `k`-th binary prefix; and it falls back to `Yi`
when all eight prefixes are exhausted (stated below the float overflow
threshold `2 ^ 1024`, beyond which the program raises instead). -/
theorem sizeof_fmt_spec :
    sizeof_fmt 0 = "0B" ∧ sizeof_fmt 1024 = "1.0KiB" ∧
    sizeof_fmt 1536 = "1.5KiB" ∧
    (∀ n : Int, 0 ≤ n → n < 1024 → sizeof_fmt n = toString n ++ "B") ∧
    (∀ (n : Int) (k : Nat), 0 ≤ n → 1024 ≤ n → 1 ≤ k → k ≤ 7 →
      (1024 : Int) ^ k ≤ floatOfInt n → floatOfInt n < (1024 : Int) ^ (k + 1) →
      sizeof_fmt n = fmt31 (floatOfInt n) k ++ fmtUnits.getD k "" ++ "B") ∧
    (∀ n : Int, 1024 ≤ n → n.natAbs < 2 ^ 1023 → (1024 : Int) ^ 8 ≤ floatOfInt n →
      sizeof_fmt n = fmt31 (floatOfInt n) 8 ++ "Yi" ++ "B") := by
  refine ⟨by decide, by decide, by decide, ?_, ?_, ?_⟩
  · intro n h0 hhi
    simp only [sizeof_fmt]
    rw [if_pos (by omega : n.natAbs < 1024)]
    simp
  · intro n k h0 h1024 hk1 hk7 hlo hhi
    interval_cases k <;>
      (simp only [sizeof_fmt, sizeof_fmt_loop]
       norm_num at hlo hhi
       split_ifs <;> first | rfl | (exfalso; omega))
  · intro n h1024 hovf h8
    simp only [sizeof_fmt, sizeof_fmt_loop]
    norm_num at h8
    split_ifs <;> first | rfl | (exfalso; omega)

theorem sizeof_fmt_spec_witness :
    sizeof_fmt 2048 = "2.0KiB" ∧ sizeof_fmt ((1024 : Int) ^ 8) = "1.0YiB" := by
  constructor
  · have h := sizeof_fmt_spec.2.2.2.2.1 2048 1 (by decide) (by decide)
      (by decide) (by decide) (by decide) (by decide)
    rw [h]; decide
  · have h := sizeof_fmt_spec.2.2.2.2.2 ((1024 : Int) ^ 8) (by decide)
      (by decide) (by decide)
    rw [h]; decide

/-!
## `groups2subjects`

The default template is `'{title} #{num} ({progress}/{total}) {size}'`
(braces delimiting the five substitution fields); the progress field is
rendered by `'%d-%d' % progress_tup`.  `subject_text` is that template
with the fields interpolated.
-/

/-- One formatted subject line. -/
def subject_text (title : String) (num lo hi total : Nat) (size : String) :
    String :=
  title ++ " #" ++ toString num ++ " (" ++ toString lo ++ "-" ++ toString hi ++
    "/" ++ toString total ++ ") " ++ size

/-- The `for i, grp in enumerate(groups)` loop of `groups2subjects`:
`prev_hi` is the second component of the previous `progress_tup`
(initially `(0, 0)`), and each step sets
`progress_tup = (prev_hi + 1, prev_hi + len(grp))`. -/
def groups2subjects_loop (title : String) (total : Nat) :
    List (List FileMeta) → Nat → Nat → List String
  | [], _, _ => []
  | grp :: rest, i, prev_hi =>
    subject_text title (i + 1) (prev_hi + 1) (prev_hi + grp.length) total
        (sizeof_fmt (sizeSum grp)) ::
      groups2subjects_loop title total rest (i + 1) (prev_hi + grp.length)

/-- `groups2subjects(groups, title)` from `batchmail.py` with the default
subject template: `total = sum(len(x) for x in groups)`, then the loop. -/
def groups2subjects (groups : List (List FileMeta)) (title : String) :
    List String :=
  groups2subjects_loop title ((groups.map List.length).sum) groups 0 0

/-- Number of records in the first `i` groups. -/
def cumCount (groups : List (List FileMeta)) (i : Nat) : Nat :=
  ((groups.take i).map List.length).sum

/-- The spec's description of the subject list (section 4.5 / C6): the
`j`-th subject (0-based) carries group number `j + 1`, the cumulative
1-based range from `cumCount groups j + 1` to `cumCount groups (j + 1)`,
the grand total in every subject, and the group's formatted byte size. -/
def groups2subjects_spec_fn (groups : List (List FileMeta)) (title : String) :
    List String :=
  (List.range groups.length).map fun j =>
    subject_text title (j + 1) (cumCount groups j + 1) (cumCount groups (j + 1))
      ((groups.map List.length).sum) (sizeof_fmt (sizeSum (groups.getD j [])))

theorem cumCount_cons (g : List FileMeta) (rest : List (List FileMeta))
    (j : Nat) : cumCount (g :: rest) (j + 1) = g.length + cumCount rest j := by
  simp [cumCount, List.take_succ_cons]

theorem subject_text_congr (t : String) (a a' b b' c c' d : Nat) (s : String)
    (h1 : a = a') (h2 : b = b') (h3 : c = c') :
    subject_text t a b c d s = subject_text t a' b' c' d s := by
  rw [h1, h2, h3]

theorem groups2subjects_loop_eq (title : String) (total : Nat) :
    ∀ (l : List (List FileMeta)) (i e : Nat),
      groups2subjects_loop title total l i e =
        (List.range l.length).map fun j =>
          subject_text title (i + j + 1) (e + cumCount l j + 1)
            (e + cumCount l (j + 1)) total
            (sizeof_fmt (sizeSum (l.getD j []))) := by
  intro l
  induction l with
  | nil => intro i e; rfl
  | cons g rest ih =>
    intro i e
    have hcum0 : cumCount (g :: rest) 0 = 0 := rfl
    simp only [groups2subjects_loop, List.length_cons, List.range_succ_eq_map,
      List.map_cons, List.map_map, ih, Nat.zero_add, Nat.add_zero, hcum0,
      List.getD_cons_zero]
    refine congrArg₂ List.cons ?_ ?_
    · refine subject_text_congr _ _ _ _ _ _ _ _ _ ?_ ?_ ?_
      · omega
      · omega
      · rw [cumCount_cons]; simp [cumCount]
    · refine List.map_congr_left ?_
      intro j hj
      simp only [Function.comp_apply, Nat.succ_eq_add_one, List.getD_cons_succ,
        cumCount_cons]
      refine subject_text_congr _ _ _ _ _ _ _ _ _ ?_ ?_ ?_
      · omega
      · omega
      · omega

/-- Claim C6: `groups2subjects` produces one subject per group, in order,
whose progress ranges are the cumulative 1-based intervals over the group
lengths and whose total field is the overall record count throughout —
i.e. it agrees with the closed-form description
`groups2subjects_spec_fn`. -/
theorem groups2subjects_progress (groups : List (List FileMeta))
    (title : String) :
    groups2subjects groups title = groups2subjects_spec_fn groups title := by
  unfold groups2subjects groups2subjects_spec_fn
  rw [groups2subjects_loop_eq]
  refine List.map_congr_left ?_
  intro j hj
  refine subject_text_congr _ _ _ _ _ _ _ _ _ ?_ ?_ ?_ <;> omega

/-- Claim C10: partitioning the empty input yields the single empty group,
and `groups2subjects` on `[[]]` with the default title and template yields
exactly one subject, `"batch mailer #1 (1-0/0) 0B"`, with the inverted
range `1-0` and total `0`. -/
theorem groups2subjects_empty_group (max_size : Nat) :
    meta_data2groups [] max_size = Except.ok [[]] ∧
    groups2subjects [[]] "batch mailer" = ["batch mailer #1 (1-0/0) 0B"] :=
  ⟨rfl, by decide⟩

/-!
## Python values

`sort_meta_data_list` and `group2text` see full metadata records: nested
Python dicts whose leaves are strings, ints, byte strings (thumbnails),
tuples (image dimensions) and `None`.  `PyVal` embeds that value
universe; `PyList` and `PyDict` are inlined list types so that every
recursion below is plainly structural.  `tuple` models both Python lists
and tuples, which behave identically for `<`-comparison and JSON
serialization as used here; a dict is its (insertion-ordered, unique-key)
association list.  Numeric leaves are modeled as integers: the float
timestamps play no role in any claim.
-/

mutual

inductive PyVal where
  | int : Int → PyVal
  | str : String → PyVal
  | bytes : List Nat → PyVal
  | pynone : PyVal
  | tuple : PyList → PyVal
  | dict : PyDict → PyVal

inductive PyList where
  | nil : PyList
  | cons : PyVal → PyList → PyList

inductive PyDict where
  | nil : PyDict
  | cons : String → PyVal → PyDict → PyDict

end

/-- Python `x in d` and `d[x]` on a dict: key lookup. -/
def dictLookup : PyDict → String → Option PyVal
  | PyDict.nil, _ => none
  | PyDict.cons k v rest, x => if k = x then some v else dictLookup rest x

/-- Lexicographic `<` on byte strings. -/
def bytesLt : List Nat → List Nat → Bool
  | [], [] => false
  | [], _ :: _ => true
  | _ :: _, [] => false
  | a :: as, b :: bs =>
    if a < b then true else if b < a then false else bytesLt as bs

mutual

/-- Python `a < b` on the value kinds occurring in metadata records:
ints, strings and byte strings by their natural orders, tuples
lexicographically; `none` models a TypeError (mixed kinds, dicts, None).
Python compares tuples elementwise first by `==` and then by `<`; for the
totally ordered kinds appearing inside tuple sort keys here (numbers,
strings, nested such tuples) that coincides with the two-sided `<` test
below. -/
def pyLt : PyVal → PyVal → Option Bool
  | PyVal.int a, PyVal.int b => some (decide (a < b))
  | PyVal.str a, PyVal.str b => some (decide (a < b))
  | PyVal.bytes a, PyVal.bytes b => some (bytesLt a b)
  | PyVal.tuple a, PyVal.tuple b => pyListLt a b
  | _, _ => none
termination_by a b => sizeOf a + sizeOf b

/-- Lexicographic tuple comparison; a strict prefix is smaller. -/
def pyListLt : PyList → PyList → Option Bool
  | PyList.nil, PyList.nil => some false
  | PyList.nil, PyList.cons _ _ => some true
  | PyList.cons _ _, PyList.nil => some false
  | PyList.cons a as, PyList.cons b bs =>
    match pyLt a b with
    | none => none
    | some true => some true
    | some false =>
      match pyLt b a with
      | none => none
      | some true => some false
      | some false => pyListLt as bs
termination_by a b => sizeOf a + sizeOf b

end

/-- Helper for the Python single-character split `ordered_by.split('.')`:
cut a character list at every dot. -/
def splitDot : List Char → List (List Char)
  | [] => [[]]
  | c :: cs =>
    if c = '.' then [] :: splitDot cs
    else
      match splitDot cs with
      | [] => [[c]]
      | w :: ws => (c :: w) :: ws

/-- Python `ordered_by.split('.')`.  (`String.splitOn` agrees with this on
a one-character separator, but is defined by well-founded recursion on
string positions and thus does not evaluate inside the kernel; this
structural version does.) -/
def splitPath (s : String) : List String :=
  (splitDot s.data).map (fun w => String.mk w)

/-- The inner `cmp(a, b)` of `sort_meta_data_list`: `-1` if `a < b`, else
`1` if `a > b` (Python evaluates `a < b` first, then `a > b`, which is
`b < a`), else `0`; `none` models a TypeError escaping from an
unsupported value comparison. -/
def cmp3 (a b : PyVal) : Option Int :=
  match pyLt a b with
  | none => none
  | some true => some (-1)
  | some false =>
    match pyLt b a with
    | none => none
    | some true => some 1
    | some false => some 0

/-- The `key_cmp(a, b)` closure of `sort_meta_data_list`: walk the
dot-separated segments of `ordered_by`; at each segment, if `a` is not a
dict containing it, return `-1` at once; otherwise descend in `a`; then
likewise return `1` if `b` lacks the segment; at the end of the path
compare the reached values with `cmp`. -/
def key_cmp : List String → PyVal → PyVal → Option Int
  | [], a, b => cmp3 a b
  | x :: rest, a, b =>
    match a with
    | PyVal.dict d =>
      match dictLookup d x with
      | some a' =>
        match b with
        | PyVal.dict e =>
          match dictLookup e x with
          | some b' => key_cmp rest a' b'
          | none => some 1
        | _ => some 1
      | none => some (-1)
    | _ => some (-1)

/-- Successive dict lookup along a key path; `none` when some segment is
missing, i.e. the record lacks the sort path. -/
def getPath : PyVal → List String → Option PyVal
  | v, [] => some v
  | v, x :: rest =>
    match v with
    | PyVal.dict d =>
      match dictLookup d x with
      | some v' => getPath v' rest
      | none => none
    | _ => none

/-- The strict order that `functools.cmp_to_key(key_cmp)` hands to
`list.sort`: the sort compares wrapped keys only through `__lt__`, i.e.
`key_cmp(a, b) < 0`.  A comparison that raises (`none`) leaves the sort
with no defined result; it is mapped to `false` here and never reached by
the theorems below. -/
def key_lt (p : List String) (a b : PyVal) : Bool :=
  match key_cmp p a b with
  | some c => decide (c < 0)
  | none => false

/-- Stable insertion: `x` goes before the first element that is not
strictly below it. -/
def insort (lt : PyVal → PyVal → Bool) (x : PyVal) : List PyVal → List PyVal
  | [] => [x]
  | y :: ys => if lt y x then y :: insort lt x ys else x :: y :: ys

/-- `list.sort` is timsort, a stable comparison sort driven entirely by
`<` on the keys; on a consistent comparator every stable sort computes
the same list, so it is embedded as a stable insertion sort (CPython
itself uses binary insertion for short runs).  The theorems below only
exercise two-element lists under a consistent comparator, where every
stable sort agrees with this one. -/
def pysort (lt : PyVal → PyVal → Bool) : List PyVal → List PyVal
  | [] => []
  | x :: xs => insort lt x (pysort lt xs)

/-- `sort_meta_data_list(metas, ordered_by, reverse)` from `batchmail.py`:
sort a copy of `metas` by `functools.cmp_to_key(key_cmp)`.  CPython
implements `reverse=True` by reversing the list before and after the
stable sort. -/
def sort_meta_data_list (metas : List PyVal) (ordered_by : String)
    (reverse : Bool) : List PyVal :=
  let lt := key_lt (splitPath ordered_by)
  if reverse then (pysort lt metas.reverse).reverse else pysort lt metas

/-- Missing-path short-circuit of `key_cmp`: if `b` has the full path and
`a` lacks it, `key_cmp` returns `-1` on `(a, b)` and `1` on `(b, a)`,
without ever comparing values (so no TypeError can arise). -/
theorem key_cmp_missing :
    ∀ (p : List String) (a b : PyVal),
      (getPath b p).isSome = true → getPath a p = none →
      key_cmp p a b = some (-1) ∧ key_cmp p b a = some 1 := by
  intro p
  induction p with
  | nil =>
    intro a b _ ha
    simp [getPath] at ha
  | cons x rest ih =>
    intro a b hb ha
    cases b with
    | dict e =>
      simp only [getPath] at hb
      cases hlkb : dictLookup e x with
      | none => rw [hlkb] at hb; simp at hb
      | some b' =>
        rw [hlkb] at hb
        cases a with
        | dict d =>
          simp only [getPath] at ha
          cases hlka : dictLookup d x with
          | none =>
            constructor
            · simp only [key_cmp, hlka]
            · simp only [key_cmp, hlkb, hlka]
          | some a' =>
            rw [hlka] at ha
            have := ih a' b' hb ha
            constructor
            · simp only [key_cmp, hlka, hlkb]; exact this.1
            · simp only [key_cmp, hlkb, hlka]; exact this.2
        | int n =>
          exact ⟨by simp only [key_cmp], by simp only [key_cmp, hlkb]⟩
        | str s =>
          exact ⟨by simp only [key_cmp], by simp only [key_cmp, hlkb]⟩
        | bytes bs =>
          exact ⟨by simp only [key_cmp], by simp only [key_cmp, hlkb]⟩
        | pynone =>
          exact ⟨by simp only [key_cmp], by simp only [key_cmp, hlkb]⟩
        | tuple t =>
          exact ⟨by simp only [key_cmp], by simp only [key_cmp, hlkb]⟩
    | int n => simp [getPath] at hb
    | str s => simp [getPath] at hb
    | bytes bs => simp [getPath] at hb
    | pynone => simp [getPath] at hb
    | tuple t => simp [getPath] at hb

/-- Claim C5: a record lacking some segment of the dotted sort path
compares below, and sorts before, a record possessing the full path, in
ascending order (`reverse=False`); the comparison returns a result
(`some`) rather than raising for the missing field. -/
theorem sort_missing_key_first (ordered_by : String) (a b : PyVal)
    (hb : (getPath b (splitPath ordered_by)).isSome = true)
    (ha : getPath a (splitPath ordered_by) = none) :
    key_cmp (splitPath ordered_by) a b = some (-1) ∧
    sort_meta_data_list [a, b] ordered_by false = [a, b] ∧
    sort_meta_data_list [b, a] ordered_by false = [a, b] := by
  obtain ⟨h1, h2⟩ := key_cmp_missing (splitPath ordered_by) a b hb ha
  refine ⟨h1, ?_, ?_⟩
  · simp [sort_meta_data_list, pysort, insort, key_lt, h2]
  · simp [sort_meta_data_list, pysort, insort, key_lt, h1]

theorem sort_missing_key_first_witness :
    key_cmp (splitPath "k") (PyVal.dict PyDict.nil)
        (PyVal.dict (PyDict.cons "k" (PyVal.int 1) PyDict.nil)) = some (-1) ∧
    sort_meta_data_list
        [PyVal.dict PyDict.nil,
          PyVal.dict (PyDict.cons "k" (PyVal.int 1) PyDict.nil)] "k" false =
      [PyVal.dict PyDict.nil,
        PyVal.dict (PyDict.cons "k" (PyVal.int 1) PyDict.nil)] ∧
    sort_meta_data_list
        [PyVal.dict (PyDict.cons "k" (PyVal.int 1) PyDict.nil),
          PyVal.dict PyDict.nil] "k" false =
      [PyVal.dict PyDict.nil,
        PyVal.dict (PyDict.cons "k" (PyVal.int 1) PyDict.nil)] :=
  sort_missing_key_first "k" (PyVal.dict PyDict.nil)
    (PyVal.dict (PyDict.cons "k" (PyVal.int 1) PyDict.nil)) rfl rfl

/-!
## JSON serialization (`group2text`)

`group2text(grp)` is `json_encode([x for x in grp], indent=4)`, i.e.
`json.dumps(list(grp), cls=JSONEncoder, ensure_ascii=False, indent=4)`.
`json.dumps` serializes `str`, numbers, `None`, `list`/`tuple` and `dict`
natively, and calls the encoder's `default(o)` hook on any other value;
raising `TypeError` from that hook is the only way serialization of these
values can fail.  The module's `JSONEncoder.default` returns
`o.__json__()` when the object defines it and `None` otherwise — unlike
the base-class hook, it never raises.  No value stored in a metadata
record defines `__json__` (the only non-native leaves are the thumbnail
byte strings), so the hook is the constant `None`.  Because the hook is
pure, total and returns a native value, `json.dumps`'s interleaved
"serialize, deferring to `default` at non-native nodes" is equivalent to
first replacing every non-native node by the hook's result
(`json_sanitize`) and then running the native serializer (`encNative`),
whose error case marks exactly where `json.dumps` would raise. -/

/-- The `JSONEncoder.default(self, o)` hook of `batchmail.py`, on values
occurring in metadata records: none of them has a `__json__` method, so
the hook always takes its `else` branch and returns `None`. -/
def json_default (_o : PyVal) : PyVal :=
  PyVal.pynone

mutual

/-- Replace every non-JSON-native node (here: `bytes` leaves) by what
`JSONEncoder.default` returns for it. -/
def json_sanitize : PyVal → PyVal
  | PyVal.int n => PyVal.int n
  | PyVal.str s => PyVal.str s
  | PyVal.pynone => PyVal.pynone
  | PyVal.bytes b => json_default (PyVal.bytes b)
  | PyVal.tuple xs => PyVal.tuple (json_sanitizeList xs)
  | PyVal.dict kvs => PyVal.dict (json_sanitizeDict kvs)

def json_sanitizeList : PyList → PyList
  | PyList.nil => PyList.nil
  | PyList.cons x xs => PyList.cons (json_sanitize x) (json_sanitizeList xs)

def json_sanitizeDict : PyDict → PyDict
  | PyDict.nil => PyDict.nil
  | PyDict.cons k v rest =>
    PyDict.cons k (json_sanitize v) (json_sanitizeDict rest)

end

/-- One hexadecimal digit, lowercase. -/
def hexDigit (n : Nat) : Char :=
  if n < 10 then Char.ofNat (48 + n) else Char.ofNat (87 + n)

/-- Four hexadecimal digits, as in a JSON `\uXXXX` escape. -/
def hex4 (n : Nat) : String :=
  String.mk [hexDigit (n / 4096 % 16), hexDigit (n / 256 % 16),
    hexDigit (n / 16 % 16), hexDigit (n % 16)]

/-- The escaping `json.dumps` applies inside string literals with
`ensure_ascii=False`: backslash, double quote and the control characters
below 0x20 (the five named ones by their short escapes, the rest as
`\uXXXX`); everything else is copied verbatim. -/
def jsonEscapeChar (c : Char) : String :=
  if c = '\\' then "\\\\"
  else if c = '\"' then "\\\""
  else if c = '\n' then "\\n"
  else if c = '\t' then "\\t"
  else if c = '\r' then "\\r"
  else if c = Char.ofNat 8 then "\\b"
  else if c = Char.ofNat 12 then "\\f"
  else if c.toNat < 32 then "\\u" ++ hex4 c.toNat
  else String.mk [c]

/-- A JSON string literal for `s`. -/
def jsonEscape (s : String) : String :=
  "\"" ++ String.join (s.data.map jsonEscapeChar) ++ "\""

/-- `indent=4` indentation for nesting level `lvl`. -/
def indentStr (lvl : Nat) : String :=
  String.mk (List.replicate (4 * lvl) ' ')

mutual

/-- The native part of `json.dumps(..., ensure_ascii=False, indent=4)`:
ints, strings, `None`, arrays (Python lists and tuples) and dicts
(string keys, as in metadata records), laid out with `indent=4` and the
default separators.  Any node this serializer rejects (`bytes`) is where
`json.dumps` raises `TypeError`. -/
def encNative : Nat → PyVal → Except String String
  | _, PyVal.int n => Except.ok (toString n)
  | _, PyVal.str s => Except.ok (jsonEscape s)
  | _, PyVal.pynone => Except.ok "null"
  | _, PyVal.bytes _ =>
    Except.error "TypeError: Object of type bytes is not JSON serializable"
  | _, PyVal.tuple PyList.nil => Except.ok "[]"
  | lvl, PyVal.tuple (PyList.cons y ys) =>
    match encItems (lvl + 1) (PyList.cons y ys) with
    | Except.error e => Except.error e
    | Except.ok parts =>
      Except.ok ("[\n" ++ indentStr (lvl + 1) ++
        String.intercalate (",\n" ++ indentStr (lvl + 1)) parts ++
        "\n" ++ indentStr lvl ++ "]")
  | _, PyVal.dict PyDict.nil => Except.ok "\x7b\x7d"
  | lvl, PyVal.dict (PyDict.cons k v kvs) =>
    match encPairs (lvl + 1) (PyDict.cons k v kvs) with
    | Except.error e => Except.error e
    | Except.ok parts =>
      Except.ok ("\x7b\n" ++ indentStr (lvl + 1) ++
        String.intercalate (",\n" ++ indentStr (lvl + 1)) parts ++
        "\n" ++ indentStr lvl ++ "\x7d")

def encItems : Nat → PyList → Except String (List String)
  | _, PyList.nil => Except.ok []
  | lvl, PyList.cons x rest =>
    match encNative lvl x with
    | Except.error e => Except.error e
    | Except.ok s =>
      match encItems lvl rest with
      | Except.error e => Except.error e
      | Except.ok others => Except.ok (s :: others)

def encPairs : Nat → PyDict → Except String (List String)
  | _, PyDict.nil => Except.ok []
  | lvl, PyDict.cons k v rest =>
    match encNative lvl v with
    | Except.error e => Except.error e
    | Except.ok s =>
      match encPairs lvl rest with
      | Except.error e => Except.error e
      | Except.ok others => Except.ok ((jsonEscape k ++ ": " ++ s) :: others)

end

/-- `json_encode(obj, indent=4)` from `batchmail.py`:
`json.dumps(obj, cls=JSONEncoder, ensure_ascii=False, indent=4)`
(the `indent=4` keyword is the one `group2text` passes). -/
def json_encode4 (v : PyVal) : Except String String :=
  encNative 0 (json_sanitize v)

/-- The list comprehension `[x for x in grp]` as a `PyList`. -/
def pyListOfList : List PyVal → PyList
  | [] => PyList.nil
  | x :: xs => PyList.cons x (pyListOfList xs)

/-- `group2text(grp)` from `batchmail.py`:
`json_encode([x for x in grp], indent=4)`. -/
def group2text (grp : List PyVal) : Except String String :=
  json_encode4 (PyVal.tuple (pyListOfList grp))

/-- `true` iff serialization succeeded (no exception). -/
def exOk {α : Type} : Except String α → Bool
  | Except.ok _ => true
  | Except.error _ => false

mutual

theorem sanitize_enc_ok (lvl : Nat) (v : PyVal) :
    exOk (encNative lvl (json_sanitize v)) = true := by
  cases v with
  | int n => rfl
  | str s => rfl
  | pynone => rfl
  | bytes b => rfl
  | tuple xs =>
    cases xs with
    | nil => rfl
    | cons x rest =>
      obtain ⟨parts, hp⟩ := sanitize_items_ok (lvl + 1) (PyList.cons x rest)
      simp only [json_sanitizeList] at hp
      simp only [json_sanitize, json_sanitizeList, encNative, hp]
      rfl
  | dict kvs =>
    cases kvs with
    | nil => rfl
    | cons k v rest =>
      obtain ⟨parts, hp⟩ := sanitize_pairs_ok (lvl + 1) (PyDict.cons k v rest)
      simp only [json_sanitizeDict] at hp
      simp only [json_sanitize, json_sanitizeDict, encNative, hp]
      rfl

theorem sanitize_items_ok (lvl : Nat) (xs : PyList) :
    ∃ parts, encItems lvl (json_sanitizeList xs) = Except.ok parts := by
  cases xs with
  | nil => exact ⟨[], rfl⟩
  | cons x rest =>
    have hx := sanitize_enc_ok lvl x
    obtain ⟨s, hs⟩ : ∃ s, encNative lvl (json_sanitize x) = Except.ok s := by
      cases h : encNative lvl (json_sanitize x) with
      | ok s => exact ⟨s, rfl⟩
      | error e => rw [h] at hx; exact absurd hx (by simp [exOk])
    obtain ⟨others, ho⟩ := sanitize_items_ok lvl rest
    refine ⟨s :: others, ?_⟩
    simp only [json_sanitizeList, encItems, hs, ho]

theorem sanitize_pairs_ok (lvl : Nat) (kvs : PyDict) :
    ∃ parts, encPairs lvl (json_sanitizeDict kvs) = Except.ok parts := by
  cases kvs with
  | nil => exact ⟨[], rfl⟩
  | cons k v rest =>
    have hv := sanitize_enc_ok lvl v
    obtain ⟨s, hs⟩ : ∃ s, encNative lvl (json_sanitize v) = Except.ok s := by
      cases h : encNative lvl (json_sanitize v) with
      | ok s => exact ⟨s, rfl⟩
      | error e => rw [h] at hv; exact absurd hv (by simp [exOk])
    obtain ⟨others, ho⟩ := sanitize_pairs_ok lvl rest
    refine ⟨(jsonEscape k ++ ": " ++ s) :: others, ?_⟩
    simp only [json_sanitizeDict, encPairs, hs, ho]

end

/-- Claim C8: `group2text` raises no serialization error on any group of
metadata-record values — including records holding thumbnail byte
strings — and every value that is not JSON-representable and has no
`__json__` method (the byte-string leaves) is rendered as the `null`
marker. -/
theorem group2text_never_raises :
    (∀ grp : List PyVal, exOk (group2text grp) = true) ∧
    (∀ (lvl : Nat) (b : List Nat),
      encNative lvl (json_sanitize (PyVal.bytes b)) = Except.ok "null") := by
  constructor
  · intro grp
    simp only [group2text, json_encode4]
    exact sanitize_enc_ok 0 (PyVal.tuple (pyListOfList grp))
  · intro lvl b
    rfl

end Batchmail
